import Mathlib

/-!
Verification of the functional histogram bucketing algorithm
(`src/lib.rs`: trait `Bucketing`, struct `Functional`).

The Rust code computes with `f64` values and the platform `libm`
(`powf`, `log`).  We embed the integer skeleton of the code exactly
(u64 arithmetic is `Nat` with an explicit `% 2 ^ 64` where the code can
overflow) and parametrise it over the floating-point operations through
the interface `FloatOps`, so that statements that do not depend on
floating-point behaviour hold for every interpretation of the float type.

For concrete statements we instantiate `FloatOps` with the model `FP`
below: the type `F64` has the IEEE special values (infinities, NaN) with
the IEEE-mandated special-case rules for division, `powf`, and `ln`,
while *finite* arithmetic is exact real arithmetic (rounding of finite
intermediate results is not modelled, and `u64 -> f64` conversion is
exact; the real conversion rounds above `2 ^ 53`).  Every concrete
theorem below was chosen so that the exhibited behaviour only exercises
IEEE-exact steps of the real code (quotients `x / x`, powers at
exactly-representable points, `log 0 = -inf`, `1 / inf = 0`,
`pow(x, 0) = 1`), so the model and the compiled code agree there.

Two integer-overflow semantics of `sample + 1` are embedded: the
release-build wrapping semantics (`% 2 ^ 64`) in
`Functional.sample_to_bucket_minimum`, and the debug-assertion
(checked, panicking) semantics in
`Functional.sample_to_bucket_minimumChecked`, which returns `none`
where a debug build panics.
-/

/-- The 64-bit floating-point operations the Rust code uses, left
abstract: `one` is the literal `1.0`, `div` is `/`, `powf` is
`f64::powf`, `log` is `f64::log(self, base)`, `ofU64` is `as f64`,
and `toU64` is the saturating `as u64` cast (hence its result is
always in `[0, 2^64)`). -/
structure FloatOps where
  F : Type
  one : F
  div : F → F → F
  powf : F → F → F
  log : F → F → F
  ofU64 : Nat → F
  toU64 : F → Nat

/-- `struct Functional { exponent: f64 }`. -/
structure Functional (M : FloatOps) where
  exponent : M.F

/-- `Functional::new`: `exponent = log_base.powf(1.0 / buckets_per_magnitude)`. -/
def Functional.new (M : FloatOps) (log_base buckets_per_magnitude : M.F) :
    Functional M :=
  ⟨M.powf log_base (M.div M.one buckets_per_magnitude)⟩

/-- `Functional::sample_to_bucket_index`:
`((sample + 1) as f64).log(self.exponent) as u64`, with the
release-build wrapping semantics of the `u64` addition `sample + 1`. -/
def Functional.sample_to_bucket_index {M : FloatOps} (f : Functional M)
    (sample : Nat) : Nat :=
  M.toU64 (M.log (M.ofU64 ((sample + 1) % 2 ^ 64)) f.exponent)

/-- `Functional::bucket_index_to_bucket_minimum`:
`self.exponent.powf(index as f64) as u64`. -/
def Functional.bucket_index_to_bucket_minimum {M : FloatOps} (f : Functional M)
    (index : Nat) : Nat :=
  M.toU64 (M.powf f.exponent (M.ofU64 index))

/-- `Bucketing::sample_to_bucket_minimum` for `Functional`: return `0`
for sample `0`, otherwise map the sample to its bucket index and the
index back to the bucket minimum. -/
def Functional.sample_to_bucket_minimum {M : FloatOps} (f : Functional M)
    (sample : Nat) : Nat :=
  if sample = 0 then 0
  else f.bucket_index_to_bucket_minimum (f.sample_to_bucket_index sample)

/-- Checked `u64` addition: `a + b`, or `none` on overflow (the
behaviour of Rust debug builds, where overflow panics; the repository's
own test suite compiles this way). -/
def checkedAdd (a b : Nat) : Option Nat :=
  if a + b < 2 ^ 64 then some (a + b) else none

/-- `sample_to_bucket_index` under debug-assertion (checked) overflow
semantics: `none` models the overflow panic of `sample + 1`. -/
def Functional.sample_to_bucket_indexChecked {M : FloatOps} (f : Functional M)
    (sample : Nat) : Option Nat :=
  (checkedAdd sample 1).map (fun n => M.toU64 (M.log (M.ofU64 n) f.exponent))

/-- `sample_to_bucket_minimum` under debug-assertion (checked) overflow
semantics. -/
def Functional.sample_to_bucket_minimumChecked {M : FloatOps} (f : Functional M)
    (sample : Nat) : Option Nat :=
  if sample = 0 then some 0
  else (f.sample_to_bucket_indexChecked sample).map
    f.bucket_index_to_bucket_minimum

/-- Result of an operation that can abort the program: `panic msg`
models Rust's `unimplemented!` / `panic!`, which never returns a
value. -/
inductive PanicOr (α : Type) where
  | panic (msg : String)
  | ok (val : α)
deriving DecidableEq

/-- `Bucketing::ranges` for `Functional`:
`unimplemented!("Bucket ranges for functional bucketing are not precomputed")`. -/
def Functional.ranges {M : FloatOps} (_f : Functional M) :
    PanicOr (List Nat) :=
  PanicOr.panic "not implemented: Bucket ranges for functional bucketing are not precomputed"

/-! ## A concrete model of `f64`

IEEE special values and special-case rules are modelled exactly; finite
arithmetic is exact real arithmetic (no rounding). -/

/-- A 64-bit float: a finite value (carrying its exact real value; the
finite grid and rounding are not modelled), an infinity, or NaN.
Signed zero is not distinguished (`num 0` stands for both zeros). -/
inductive F64 where
  | num (x : ℝ)
  | inf
  | ninf
  | nan

namespace F64

/-- The saturating Rust cast `as u64`: NaN and negative values go to
`0`, values at or above `2^64` (and `+inf`) go to `u64::MAX`, finite
values in range are truncated toward zero. -/
noncomputable def toU64 : F64 → Nat
  | num x => (max 0 (min ⌊x⌋ (2 ^ 64 - 1))).toNat
  | inf => 2 ^ 64 - 1
  | ninf => 0
  | nan => 0

/-- The Rust cast `u64 as f64`, modelled as exact (the real cast rounds
to nearest above `2^53`). -/
noncomputable def ofU64 (n : Nat) : F64 := num (n : ℝ)

/-- `f64::ln` with its IEEE special cases: `ln` of a negative value is
NaN, `ln 0 = -inf`, `ln inf = inf`. -/
noncomputable def fln : F64 → F64
  | num x => if 0 < x then num (Real.log x) else if x = 0 then ninf else nan
  | inf => inf
  | ninf => nan
  | nan => nan

/-- IEEE division. Finite quotients are exact (not rounded). Signed
zeros are collapsed, so zero-sign conventions take the `+0` branch. -/
noncomputable def fdiv : F64 → F64 → F64
  | nan, _ => nan
  | _, nan => nan
  | inf, inf => nan
  | inf, ninf => nan
  | ninf, inf => nan
  | ninf, ninf => nan
  | inf, num b => if b < 0 then ninf else inf
  | ninf, num b => if b < 0 then inf else ninf
  | num _, inf => num 0
  | num _, ninf => num 0
  | num a, num b =>
      if b = 0 then (if a = 0 then nan else if a < 0 then ninf else inf)
      else num (a / b)

/-- `f64::powf` with the IEEE `pow` special cases: `pow(x, 0) = 1` for
every `x` (NaN included), `pow(1, y) = 1` for every `y`, signed results
for negative bases at integer exponents, and the infinity rules.
Finite powers of positive finite bases are the exact real power. -/
noncomputable def fpow (a b : F64) : F64 :=
  match a, b with
  | x, num y =>
      if y = 0 then num 1
      else match x with
        | num xv =>
            if 0 < xv then num (xv ^ y)
            else if xv = 0 then (if 0 < y then num 0 else inf)
            else
              if (⌊y⌋ : ℝ) = y then
                num ((if Even ⌊y⌋ then 1 else -1) * (-xv) ^ y)
              else nan
        | inf => if 0 < y then inf else num 0
        | ninf =>
            if (⌊y⌋ : ℝ) = y ∧ ¬ Even ⌊y⌋ then
              (if 0 < y then ninf else num 0)
            else
              (if 0 < y then inf else num 0)
        | nan => nan
  | x, inf =>
      match x with
      | num xv => if xv = 1 ∨ xv = -1 then num 1
                  else if -1 < xv ∧ xv < 1 then num 0 else inf
      | inf => inf
      | ninf => inf
      | nan => nan
  | x, ninf =>
      match x with
      | num xv => if xv = 1 ∨ xv = -1 then num 1
                  else if -1 < xv ∧ xv < 1 then inf else num 0
      | inf => num 0
      | ninf => num 0
      | nan => nan
  | num xv, nan => if xv = 1 then num 1 else nan
  | _, nan => nan

/-- IEEE `<` on floats: NaN compares false with everything. -/
def flt : F64 → F64 → Prop
  | num a, num b => a < b
  | num _, inf => True
  | ninf, num _ => True
  | ninf, inf => True
  | _, _ => False

end F64

/-- The concrete instantiation of the float interface with the `F64`
model.  `f64::log(self, base)` is `self.ln() / base.ln()`, as in the
Rust standard library. -/
noncomputable def FP : FloatOps where
  F := F64
  one := F64.num 1
  div := F64.fdiv
  powf := F64.fpow
  log := fun a b => F64.fdiv a.fln b.fln
  ofU64 := F64.ofU64
  toU64 := F64.toU64

/-! ## Evaluation lemmas for the concrete model -/

namespace F64

theorem toU64_num (x : ℝ) :
    toU64 (num x) = (max 0 (min ⌊x⌋ (2 ^ 64 - 1))).toNat := rfl

theorem toU64_num_of_nonneg {x : ℝ} (h : 0 ≤ ⌊x⌋) :
    toU64 (num x) = min ⌊x⌋.toNat (2 ^ 64 - 1) := by
  rw [toU64_num]; omega

theorem toU64_num_of_neg {x : ℝ} (h : ⌊x⌋ < 0) : toU64 (num x) = 0 := by
  rw [toU64_num]; omega

theorem toU64_num_natCast (n : ℕ) (h : n ≤ 2 ^ 64 - 1) :
    toU64 (num (n : ℝ)) = n := by
  rw [toU64_num, Int.floor_natCast]; omega

theorem toU64_le (v : F64) : toU64 v ≤ 2 ^ 64 - 1 := by
  cases v with
  | num x => rw [toU64_num]; omega
  | inf => exact le_refl _
  | ninf => exact Nat.zero_le _
  | nan => exact Nat.zero_le _

theorem fln_num_pos {x : ℝ} (h : 0 < x) : fln (num x) = num (Real.log x) := by
  simp [fln, h]

theorem fln_num_zero : fln (num 0) = ninf := by simp [fln]

theorem fln_num_neg {x : ℝ} (h : x < 0) : fln (num x) = nan := by
  simp [fln, not_lt.mpr h.le, h.ne]

theorem fln_inf : fln inf = inf := rfl

theorem fln_ninf : fln ninf = nan := rfl

theorem fln_nan : fln nan = nan := rfl

theorem fdiv_num_num {a b : ℝ} (hb : b ≠ 0) :
    fdiv (num a) (num b) = num (a / b) := by
  simp [fdiv, hb]

theorem fdiv_num_zero_pos {a : ℝ} (ha : 0 < a) : fdiv (num a) (num 0) = inf := by
  simp [fdiv, ha.ne', not_lt.mpr ha.le]

theorem fdiv_num_inf (a : ℝ) : fdiv (num a) inf = num 0 := rfl

theorem fdiv_num_ninf (a : ℝ) : fdiv (num a) ninf = num 0 := rfl

theorem fdiv_num_nan (a : ℝ) : fdiv (num a) nan = nan := rfl

theorem fdiv_nan_right (a : F64) : fdiv a nan = nan := by cases a <;> rfl

theorem fdiv_ninf_num {b : ℝ} (hb : ¬ b < 0) : fdiv ninf (num b) = ninf := by
  simp [fdiv, hb]

theorem fpow_num_zero (a : F64) : fpow a (num 0) = num 1 := by
  cases a <;> simp [fpow]

theorem fpow_num_num_of_pos {x y : ℝ} (hx : 0 < x) (hy : y ≠ 0) :
    fpow (num x) (num y) = num (x ^ y) := by
  simp [fpow, hy, hx]

theorem fpow_num_natCast {x : ℝ} (hx : 0 < x) (j : ℕ) :
    fpow (num x) (num (j : ℝ)) = num (x ^ (j : ℝ)) := by
  rcases eq_or_ne ((j : ℝ)) 0 with h | h
  · rw [h, fpow_num_zero, Real.rpow_zero]
  · exact fpow_num_num_of_pos hx h

theorem fpow_inf_num_natCast (j : ℕ) (hj : j ≠ 0) :
    fpow inf (num (j : ℝ)) = inf := by
  have h0 : ((j : ℝ)) ≠ 0 := Nat.cast_ne_zero.mpr hj
  have hpos : (0 : ℝ) < j := by
    exact_mod_cast Nat.pos_of_ne_zero hj
  simp [fpow, h0, hpos]

theorem fpow_ninf_num_zero : fpow ninf (num 0) = num 1 := fpow_num_zero _

theorem fpow_nan_num_zero : fpow nan (num 0) = num 1 := fpow_num_zero _

end F64

/-! ## Unfolding the pipeline over the concrete model -/

theorem FP_index_def (e : F64) (s : Nat) :
    (⟨e⟩ : Functional FP).sample_to_bucket_index s =
      F64.toU64 (F64.fdiv (F64.fln (F64.num (((s + 1) % 2 ^ 64 : ℕ) : ℝ)))
        (F64.fln e)) := rfl

theorem FP_bmin_def (e : F64) (j : Nat) :
    (⟨e⟩ : Functional FP).bucket_index_to_bucket_minimum j =
      F64.toU64 (F64.fpow e (F64.num (j : ℝ))) := rfl

/-- The bucket index computed by the model pipeline for a finite
exponent `x > 1` on an in-range non-zero sample: the clamped floor of
`logb x n`, where `n` is the incremented sample. -/
noncomputable def bidx (x : ℝ) (n : ℕ) : ℕ :=
  min ⌊Real.logb x n⌋.toNat (2 ^ 64 - 1)

theorem FP_index_gt_one {x : ℝ} (hx : 1 < x) {s n : ℕ}
    (hn : (s + 1) % 2 ^ 64 = n) (h2 : 2 ≤ n) :
    (⟨F64.num x⟩ : Functional FP).sample_to_bucket_index s = bidx x n := by
  have hx0 : (0 : ℝ) < x := lt_trans one_pos hx
  have hn0 : (0 : ℝ) < (n : ℝ) := by
    have : 0 < n := by omega
    exact_mod_cast this
  have hn1 : (1 : ℝ) ≤ (n : ℝ) := by
    have : 1 ≤ n := by omega
    exact_mod_cast this
  have hlogx : Real.log x ≠ 0 := (Real.log_pos hx).ne'
  rw [FP_index_def, hn, F64.fln_num_pos hn0, F64.fln_num_pos hx0,
      F64.fdiv_num_num hlogx, Real.log_div_log, F64.toU64_num_of_nonneg
        (Int.floor_nonneg.mpr (Real.logb_nonneg hx hn1))]
  rfl

theorem bidx_le_logb {x : ℝ} (hx : 1 < x) {n : ℕ} (h1 : 1 ≤ n) :
    (bidx x n : ℝ) ≤ Real.logb x n := by
  have hq : 0 ≤ Real.logb x n :=
    Real.logb_nonneg hx (by exact_mod_cast h1)
  have h2 : bidx x n ≤ ⌊Real.logb x n⌋.toNat := min_le_left _ _
  have h5 : (⌊Real.logb x n⌋.toNat : ℤ) = ⌊Real.logb x n⌋ :=
    Int.toNat_of_nonneg (Int.floor_nonneg.mpr hq)
  have h4 : (⌊Real.logb x n⌋ : ℝ) ≤ Real.logb x n := Int.floor_le _
  calc (bidx x n : ℝ) ≤ (⌊Real.logb x n⌋.toNat : ℝ) := by exact_mod_cast h2
    _ = (⌊Real.logb x n⌋ : ℝ) := by exact_mod_cast h5
    _ ≤ Real.logb x n := h4

theorem rpow_bidx_le {x : ℝ} (hx : 1 < x) {n : ℕ} (h1 : 1 ≤ n) :
    x ^ (bidx x n : ℝ) ≤ (n : ℝ) := by
  have hx0 : (0 : ℝ) < x := lt_trans one_pos hx
  have hn0 : (0 : ℝ) < (n : ℝ) := by exact_mod_cast h1
  calc x ^ (bidx x n : ℝ) ≤ x ^ Real.logb x n :=
        (Real.rpow_le_rpow_left_iff hx).mpr (bidx_le_logb hx h1)
    _ = (n : ℝ) := Real.rpow_logb hx0 hx.ne' hn0

theorem FP_bmin_of_pos {x : ℝ} (hx0 : 0 < x) (j : ℕ) :
    (⟨F64.num x⟩ : Functional FP).bucket_index_to_bucket_minimum j =
      min ⌊x ^ (j : ℝ)⌋.toNat (2 ^ 64 - 1) := by
  rw [FP_bmin_def, F64.fpow_num_natCast hx0, F64.toU64_num_of_nonneg
    (Int.floor_nonneg.mpr (le_of_lt (Real.rpow_pos_of_pos hx0 _)))]

theorem FP_s2m_gt_one {x : ℝ} (hx : 1 < x) {s : ℕ} (h1 : 1 ≤ s)
    (h2 : s ≤ 2 ^ 64 - 2) :
    (⟨F64.num x⟩ : Functional FP).sample_to_bucket_minimum s =
      ⌊x ^ (bidx x (s + 1) : ℝ)⌋.toNat := by
  have hmod : (s + 1) % 2 ^ 64 = s + 1 := Nat.mod_eq_of_lt (by omega)
  have h2n : 2 ≤ s + 1 := by omega
  have hle : x ^ (bidx x (s + 1) : ℝ) ≤ ((s + 1 : ℕ) : ℝ) :=
    rpow_bidx_le hx (by omega)
  have hfl : ⌊x ^ (bidx x (s + 1) : ℝ)⌋ ≤ ((s + 1 : ℕ) : ℤ) := by
    have := Int.floor_le_floor hle
    rwa [Int.floor_natCast] at this
  simp only [Functional.sample_to_bucket_minimum, if_neg (by omega : ¬ s = 0)]
  rw [FP_index_gt_one hx hmod h2n, FP_bmin_of_pos (lt_trans one_pos hx)]
  omega

theorem FP_s2m_gt_one_le {x : ℝ} (hx : 1 < x) {s : ℕ} (h1 : 1 ≤ s)
    (h2 : s ≤ 2 ^ 64 - 2) :
    (⟨F64.num x⟩ : Functional FP).sample_to_bucket_minimum s ≤ s + 1 := by
  rw [FP_s2m_gt_one hx h1 h2]
  have hle : x ^ (bidx x (s + 1) : ℝ) ≤ ((s + 1 : ℕ) : ℝ) :=
    rpow_bidx_le hx (by omega)
  have hfl : ⌊x ^ (bidx x (s + 1) : ℝ)⌋ ≤ ((s + 1 : ℕ) : ℤ) := by
    have := Int.floor_le_floor hle
    rwa [Int.floor_natCast] at this
  omega

theorem FP_s2m_gt_one_ge {x : ℝ} (hx : 1 < x) {s : ℕ} (h1 : 1 ≤ s)
    (h2 : s ≤ 2 ^ 64 - 2) :
    1 ≤ (⟨F64.num x⟩ : Functional FP).sample_to_bucket_minimum s := by
  rw [FP_s2m_gt_one hx h1 h2]
  have hge : (1 : ℝ) ≤ x ^ (bidx x (s + 1) : ℝ) :=
    Real.one_le_rpow hx.le (by positivity)
  have : (1 : ℤ) ≤ ⌊x ^ (bidx x (s + 1) : ℝ)⌋ := by
    have := Int.floor_le_floor hge
    simpa using this
  omega

/-! ## Degenerate exponents -/

theorem F64.toU64_num_one : F64.toU64 (F64.num 1) = 1 := by
  rw [F64.toU64_num, Int.floor_one]; omega

theorem F64.toU64_num_zero : F64.toU64 (F64.num 0) = 0 := by
  rw [F64.toU64_num, Int.floor_zero]; omega

theorem F64.toU64_nan : F64.toU64 F64.nan = 0 := rfl

theorem F64.toU64_ninf : F64.toU64 F64.ninf = 0 := rfl

theorem F64.toU64_inf : F64.toU64 F64.inf = 2 ^ 64 - 1 := rfl

/-- Bucket index `0` always yields bucket minimum `1`, whatever the
exponent: IEEE `pow(x, 0) = 1` even for NaN and infinite `x`. -/
theorem FP_bmin_zero (e : F64) :
    (⟨e⟩ : Functional FP).bucket_index_to_bucket_minimum 0 = 1 := by
  rw [FP_bmin_def, Nat.cast_zero, F64.fpow_num_zero, F64.toU64_num_one]

/-- Exponent values on which the pipeline degenerates to the constant
bucket minimum `1`: finite values at most `1`, infinities, NaN. -/
def F64.degenerate : F64 → Prop
  | F64.num x => x ≤ 1
  | F64.inf => True
  | F64.ninf => True
  | F64.nan => True

theorem F64.degenerate_of_le {x : ℝ} (h : x ≤ 1) : (F64.num x).degenerate := h

theorem F64.degenerate_inf : F64.inf.degenerate := trivial

theorem F64.degenerate_ninf : F64.ninf.degenerate := trivial

theorem F64.degenerate_nan : F64.nan.degenerate := trivial

theorem FP_s2m_degenerate {e : F64} (hdeg : e.degenerate) {s : ℕ}
    (h1 : 1 ≤ s) (h2 : s ≤ 2 ^ 64 - 2) :
    (⟨e⟩ : Functional FP).sample_to_bucket_minimum s = 1 := by
  have hmod : (s + 1) % 2 ^ 64 = s + 1 := Nat.mod_eq_of_lt (by omega)
  have hn1 : (1 : ℝ) < ((s + 1 : ℕ) : ℝ) := by
    have : 1 < s + 1 := by omega
    exact_mod_cast this
  have hn0 : (0 : ℝ) < ((s + 1 : ℕ) : ℝ) := lt_trans one_pos hn1
  have hlogn : 0 < Real.log ((s + 1 : ℕ) : ℝ) := Real.log_pos hn1
  simp only [Functional.sample_to_bucket_minimum, if_neg (by omega : ¬ s = 0)]
  rw [FP_index_def, hmod]
  cases e with
  | num x =>
    rcases lt_trichotomy x 0 with hx | hx | hx
    · rw [F64.fln_num_neg hx, F64.fdiv_nan_right, F64.toU64_nan, FP_bmin_zero]
    · subst hx
      rw [F64.fln_num_zero, F64.fln_num_pos hn0, F64.fdiv_num_ninf,
        F64.toU64_num_zero, FP_bmin_zero]
    · have hx1 : x ≤ 1 := hdeg
      rcases eq_or_lt_of_le hx1 with hx1 | hx1
      · subst hx1
        rw [F64.fln_num_pos one_pos, Real.log_one,
          F64.fln_num_pos hn0, F64.fdiv_num_zero_pos hlogn, F64.toU64_inf,
          FP_bmin_def, F64.fpow_num_num_of_pos one_pos
            (by exact_mod_cast (by norm_num : (2 ^ 64 - 1 : ℕ) ≠ 0)),
          Real.one_rpow, F64.toU64_num_one]
      · have hlx : Real.log x < 0 := Real.log_neg hx hx1
        have hq : Real.log ((s + 1 : ℕ) : ℝ) / Real.log x < 0 :=
          div_neg_of_pos_of_neg hlogn hlx
        rw [F64.fln_num_pos hn0, F64.fln_num_pos hx,
          F64.fdiv_num_num hlx.ne, F64.toU64_num_of_neg (by
            exact_mod_cast Int.floor_lt.mpr (by exact_mod_cast hq)),
          FP_bmin_zero]
  | inf =>
    rw [F64.fln_inf, F64.fln_num_pos hn0, F64.fdiv_num_inf,
      F64.toU64_num_zero, FP_bmin_zero]
  | ninf =>
    rw [F64.fln_ninf, F64.fdiv_nan_right, F64.toU64_nan, FP_bmin_zero]
  | nan =>
    rw [F64.fln_nan, F64.fdiv_nan_right, F64.toU64_nan, FP_bmin_zero]

/-! ## Range of the result -/

theorem FP_s2m_le_max (f : Functional FP) (s : ℕ) :
    f.sample_to_bucket_minimum s ≤ 2 ^ 64 - 1 := by
  obtain ⟨e⟩ := f
  simp only [Functional.sample_to_bucket_minimum]
  split
  · exact Nat.zero_le _
  · exact F64.toU64_le _

/-! ## Claim theorems -/

/-- C5: for every interpretation of the floating-point operations and
every `Functional` strategy, `sample_to_bucket_minimum 0 = 0`: the
code short-circuits on sample `0` before touching any float. -/
theorem C5_zero_maps_to_zero (M : FloatOps) (f : Functional M) :
    f.sample_to_bucket_minimum 0 = 0 := rfl

/-- C7: for every interpretation of the floating-point operations and
every `Functional` strategy, `ranges` always panics (it is
`unimplemented!`) and hence never returns a value: the result is the
`panic` constructor, never `ok`. -/
theorem C7_ranges_always_panics (M : FloatOps) (f : Functional M) :
    f.ranges = PanicOr.panic
      "not implemented: Bucket ranges for functional bucketing are not precomputed" :=
  rfl

/-- C4 (failing input): under the debug-assertion semantics the
repository's own tests compile with, `sample_to_bucket_minimum` at
`sample = u64::MAX` hits the overflow of `sample + 1` and panics
(modelled as `none`), for every configuration and every interpretation
of the floating-point operations — the claim that the function is total
over all `u64` input fails at this one point.  (In release builds the
addition instead wraps to `0`.) -/
theorem C4_overflow_at_u64_max (M : FloatOps) (f : Functional M) :
    f.sample_to_bucket_minimumChecked (2 ^ 64 - 1) = none := by
  simp [Functional.sample_to_bucket_minimumChecked,
    Functional.sample_to_bucket_indexChecked, checkedAdd]

/-- C9: construction never fails (it is a total function of the two
parameters), and for every configuration — including every degenerate
one (finite values of any sign, infinities, NaN) — the released
(wrapping) `sample_to_bucket_minimum` returns a `u64` value, i.e. a
natural number below `2 ^ 64`, for every sample. -/
theorem C9_total_and_in_range (lb bpm : F64) (s : ℕ) :
    (Functional.new FP lb bpm).sample_to_bucket_minimum s < 2 ^ 64 := by
  have h := FP_s2m_le_max (Functional.new FP lb bpm) s
  omega

/-! ## Evaluating the constructor and concrete samples -/

theorem FP_new_num {lb bpm : ℝ} (hlb : 0 < lb) (hbpm : bpm ≠ 0)
    (hinv : 1 / bpm ≠ 0) :
    Functional.new FP (F64.num lb) (F64.num bpm) =
      ⟨F64.num (lb ^ (1 / bpm))⟩ := by
  show (⟨F64.fpow (F64.num lb) (F64.fdiv (F64.num 1) (F64.num bpm))⟩ :
      Functional FP) = _
  rw [F64.fdiv_num_num hbpm, F64.fpow_num_num_of_pos hlb hinv]

theorem FP_new_2_1 :
    Functional.new FP (F64.num 2) (F64.num 1) = ⟨F64.num 2⟩ := by
  rw [FP_new_num two_pos one_ne_zero (by norm_num)]
  have h1 : (1 : ℝ) / 1 = 1 := by norm_num
  rw [h1, Real.rpow_one]

theorem FP_s2m_2_1_sample1 :
    (Functional.new FP (F64.num 2) (F64.num 1)).sample_to_bucket_minimum 1 = 2 := by
  rw [FP_new_2_1, FP_s2m_gt_one one_lt_two (by norm_num) (by norm_num)]
  have hb : bidx 2 2 = 1 := by
    unfold bidx
    have h2 : ((2 : ℕ) : ℝ) = (2 : ℝ) := by norm_num
    have hlb : Real.logb 2 ((2 : ℕ) : ℝ) = 1 := by
      rw [h2, Real.logb_self_eq_one (by norm_num)]
    rw [hlb, Int.floor_one]
    omega
  rw [hb]
  have h2r : (2 : ℝ) ^ ((1 : ℕ) : ℝ) = 2 := by
    rw [Nat.cast_one, Real.rpow_one]
  rw [h2r]
  norm_num
  rfl

theorem FP_s2m_2_1_sample3 :
    (Functional.new FP (F64.num 2) (F64.num 1)).sample_to_bucket_minimum 3 = 4 := by
  rw [FP_new_2_1, FP_s2m_gt_one one_lt_two (by norm_num) (by norm_num)]
  have hb : bidx 2 4 = 2 := by
    unfold bidx
    have h4 : ((4 : ℕ) : ℝ) = (2 : ℝ) ^ (2 : ℝ) := by
      rw [show (2 : ℝ) ^ (2 : ℝ) = (2 : ℝ) ^ (2 : ℕ) by
        rw [← Real.rpow_natCast 2 2]; norm_num]
      norm_num
    rw [h4, Real.logb_rpow (by norm_num) (by norm_num)]
    norm_num
    rfl
  rw [hb]
  have h4r : (2 : ℝ) ^ ((2 : ℕ) : ℝ) = 4 := by
    rw [show ((2 : ℕ) : ℝ) = (2 : ℝ) by norm_num]
    rw [show (2 : ℝ) ^ (2 : ℝ) = (2 : ℝ) ^ (2 : ℕ) by
      rw [← Real.rpow_natCast 2 2]; norm_num]
    norm_num
  rw [h4r]
  norm_num
  rfl

/-- At `sample = u64::MAX` the wrapping increment makes the offset `0`,
`ln 0 = -inf`, the index clamps to `0`, and `pow(x, 0) = 1`: the bucket
minimum collapses to `1` for every exponent above one. -/
theorem FP_s2m_gt_one_max {x : ℝ} (hx : 1 < x) :
    (⟨F64.num x⟩ : Functional FP).sample_to_bucket_minimum (2 ^ 64 - 1) = 1 := by
  have hmod : ((2 ^ 64 - 1 : ℕ) + 1) % 2 ^ 64 = 0 := by norm_num
  simp only [Functional.sample_to_bucket_minimum,
    if_neg (by norm_num : ¬ (2 ^ 64 - 1 : ℕ) = 0)]
  rw [FP_index_def, hmod, Nat.cast_zero, F64.fln_num_zero,
    F64.fln_num_pos (lt_trans one_pos hx),
    F64.fdiv_ninf_num (not_lt.mpr (Real.log_pos hx).le),
    F64.toU64_ninf, FP_bmin_zero]

/-- C1 (counterexample): with `new(2.0, 1.0)` the stored exponent is
exactly `2.0`, and sample `1` maps to bucket minimum `2 > 1`: the index
is `log 2 / log 2 = 1` exactly and `pow(2, 1) = 2`, so the compiled
code behaves identically (only exactly-rounded float steps occur).
The spec's minimum-is-floor guarantee is false. -/
theorem C1_counterexample_sample_one :
    ¬ ((Functional.new FP (F64.num 2) (F64.num 1)).sample_to_bucket_minimum 1 ≤ 1) := by
  rw [FP_s2m_2_1_sample1]
  omega

/-- C1 (amended): the bucket minimum never exceeds `sample + 1`; the
spec's bound `<= sample` fails exactly at samples `s` for which the
computed power lands on `s + 1` (offset `s + 1` an exact power of the
exponent), as in the counterexample. -/
theorem C1_minimum_le_sample_succ (f : Functional FP) (s : ℕ)
    (hs : s < 2 ^ 64) :
    f.sample_to_bucket_minimum s ≤ s + 1 := by
  obtain ⟨e⟩ := f
  rcases Nat.eq_zero_or_pos s with rfl | h1
  · simp [Functional.sample_to_bucket_minimum]
  rcases Nat.lt_or_ge s (2 ^ 64 - 1) with hs2 | hs2
  · have h2 : s ≤ 2 ^ 64 - 2 := by omega
    cases e with
    | num x =>
      rcases le_or_lt x 1 with hx | hx
      · rw [FP_s2m_degenerate (F64.degenerate_of_le hx) h1 h2]; omega
      · exact FP_s2m_gt_one_le hx h1 h2
    | inf => rw [FP_s2m_degenerate F64.degenerate_inf h1 h2]; omega
    | ninf => rw [FP_s2m_degenerate F64.degenerate_ninf h1 h2]; omega
    | nan => rw [FP_s2m_degenerate F64.degenerate_nan h1 h2]; omega
  · have := FP_s2m_le_max ⟨e⟩ s
    omega

/-- Witness for C1 (amended) at a concrete input. -/
theorem C1_minimum_le_sample_succ_witness :
    (Functional.new FP (F64.num 2) (F64.num 8)).sample_to_bucket_minimum 3 ≤ 4 :=
  C1_minimum_le_sample_succ _ 3 (by norm_num)

/-- C2 (counterexample): monotonicity fails at the top of the `u64`
range: with `new(2.0, 1.0)`, sample `3` maps to minimum `4`, but the
larger sample `u64::MAX` maps to minimum `1`, because `sample + 1`
wraps to `0` (release semantics), `ln 0 = -inf`, the cast clamps the
index to `0`, and `pow(2, 0) = 1`.  Only exactly-specified
floating-point steps are involved, so the compiled code agrees (in a
debug build the same call panics instead of returning, falsifying the
claim as well). -/
theorem C2_counterexample_wraparound :
    3 ≤ 2 ^ 64 - 1 ∧
    ¬ ((Functional.new FP (F64.num 2) (F64.num 1)).sample_to_bucket_minimum 3 ≤
      (Functional.new FP (F64.num 2) (F64.num 1)).sample_to_bucket_minimum
        (2 ^ 64 - 1)) := by
  constructor
  · norm_num
  · rw [FP_s2m_2_1_sample3, FP_new_2_1, FP_s2m_gt_one_max one_lt_two]
    omega

/-- C2 (amended): `sample_to_bucket_minimum` is monotone non-decreasing
on samples `a <= b` as long as `b <= u64::MAX - 1`, for every strategy
(the original claim fails only at `b = u64::MAX`, where the increment
overflows). -/
theorem C2_monotone_below_max (f : Functional FP) (a b : ℕ) (hab : a ≤ b)
    (hb : b ≤ 2 ^ 64 - 2) :
    f.sample_to_bucket_minimum a ≤ f.sample_to_bucket_minimum b := by
  obtain ⟨e⟩ := f
  rcases Nat.eq_zero_or_pos a with rfl | ha1
  · simp [Functional.sample_to_bucket_minimum]
  have hb1 : 1 ≤ b := le_trans ha1 hab
  have ha2 : a ≤ 2 ^ 64 - 2 := le_trans hab hb
  cases e with
  | num x =>
    rcases le_or_lt x 1 with hx | hx
    · rw [FP_s2m_degenerate (F64.degenerate_of_le hx) ha1 ha2,
        FP_s2m_degenerate (F64.degenerate_of_le hx) hb1 hb]
    · rw [FP_s2m_gt_one hx ha1 ha2, FP_s2m_gt_one hx hb1 hb]
      have hmono : bidx x (a + 1) ≤ bidx x (b + 1) := by
        unfold bidx
        have h0 : (0 : ℝ) < ((a + 1 : ℕ) : ℝ) := by positivity
        have hcast : ((a + 1 : ℕ) : ℝ) ≤ ((b + 1 : ℕ) : ℝ) := by
          exact_mod_cast (by omega : a + 1 ≤ b + 1)
        have hlb := Real.logb_le_logb_of_le hx h0 hcast
        have hfl := Int.floor_le_floor hlb
        omega
      have hr : x ^ (bidx x (a + 1) : ℝ) ≤ x ^ (bidx x (b + 1) : ℝ) :=
        (Real.rpow_le_rpow_left_iff hx).mpr (by exact_mod_cast hmono)
      have := Int.floor_le_floor hr
      omega
  | inf =>
    rw [FP_s2m_degenerate F64.degenerate_inf ha1 ha2,
      FP_s2m_degenerate F64.degenerate_inf hb1 hb]
  | ninf =>
    rw [FP_s2m_degenerate F64.degenerate_ninf ha1 ha2,
      FP_s2m_degenerate F64.degenerate_ninf hb1 hb]
  | nan =>
    rw [FP_s2m_degenerate F64.degenerate_nan ha1 ha2,
      FP_s2m_degenerate F64.degenerate_nan hb1 hb]

/-- Witness for C2 (amended) at a concrete input. -/
theorem C2_monotone_below_max_witness :
    (Functional.new FP (F64.num 2) (F64.num 8)).sample_to_bucket_minimum 10 ≤
      (Functional.new FP (F64.num 2) (F64.num 8)).sample_to_bucket_minimum 100 :=
  C2_monotone_below_max _ 10 100 (by norm_num) (by norm_num)

/-! ## Idempotence of re-mapping for exponents above one -/

/-- Re-mapping the floored power is a fixed point of the index/power
round trip: the only conceivable failure would force two consecutive
integers `m` and `m + 1` to both be exact integer powers of the
exponent, contradicting unique factorisation. -/
theorem floor_rpow_bidx_fixed {x : ℝ} (hx : 1 < x) (n m : ℕ) (hn : 2 ≤ n)
    (hnK : n ≤ 2 ^ 64 - 1) (hm : (m : ℤ) = ⌊x ^ (bidx x n : ℝ)⌋)
    (hmK : m ≤ 2 ^ 64 - 2) :
    ⌊x ^ (bidx x (m + 1) : ℝ)⌋ = (m : ℤ) := by
  have hx0 : (0 : ℝ) < x := lt_trans one_pos hx
  have hm_le : (m : ℝ) ≤ x ^ (bidx x n : ℝ) := by
    have h := Int.floor_le (x ^ (bidx x n : ℝ))
    rw [← hm] at h
    exact_mod_cast h
  have hm_lt : x ^ (bidx x n : ℝ) < (m : ℝ) + 1 := by
    have h := Int.lt_floor_add_one (x ^ (bidx x n : ℝ))
    rw [← hm] at h
    exact_mod_cast h
  have hA : x ^ (bidx x n : ℝ) ≤ (n : ℝ) := rpow_bidx_le hx (by omega)
  have hm1 : 1 ≤ m := by
    have hone : (1 : ℝ) ≤ x ^ (bidx x n : ℝ) :=
      Real.one_le_rpow hx.le (by positivity)
    have : (1 : ℤ) ≤ ⌊x ^ (bidx x n : ℝ)⌋ := by
      rw [Int.le_floor]
      exact_mod_cast hone
    omega
  have hmp1pos : (0 : ℝ) < ((m + 1 : ℕ) : ℝ) := by positivity
  have hD : (bidx x n : ℝ) < Real.logb x ((m + 1 : ℕ) : ℝ) := by
    rw [Real.lt_logb_iff_rpow_lt hx hmp1pos]
    push_cast
    exact hm_lt
  have hKn : bidx x n ≤ 2 ^ 64 - 1 := by unfold bidx; omega
  have hKn2 : bidx x (m + 1) ≤ 2 ^ 64 - 1 := by unfold bidx; omega
  have hE : bidx x n ≤ bidx x (m + 1) := by
    have hDle : (bidx x n : ℤ) ≤ ⌊Real.logb x ((m + 1 : ℕ) : ℝ)⌋ := by
      rw [Int.le_floor]
      exact_mod_cast hD.le
    have hdef : bidx x (m + 1) =
        min ⌊Real.logb x ((m + 1 : ℕ) : ℝ)⌋.toNat (2 ^ 64 - 1) := rfl
    omega
  have hF : x ^ (bidx x (m + 1) : ℝ) ≤ ((m + 1 : ℕ) : ℝ) :=
    rpow_bidx_le hx (by omega)
  have hG : (m : ℝ) ≤ x ^ (bidx x (m + 1) : ℝ) := by
    have hmono : x ^ (bidx x n : ℝ) ≤ x ^ (bidx x (m + 1) : ℝ) :=
      (Real.rpow_le_rpow_left_iff hx).mpr (by exact_mod_cast hE)
    exact le_trans hm_le hmono
  rcases lt_or_eq_of_le hF with hlt | heq
  · rw [Int.floor_eq_iff]
    constructor
    · exact_mod_cast hG
    · push_cast
      push_cast at hlt
      exact hlt
  · exfalso
    have hjj : bidx x n < bidx x (m + 1) := by
      rcases lt_or_eq_of_le hE with h | h
      · exact h
      · rw [← h] at heq
        rw [heq] at hm_lt
        push_cast at hm_lt
        linarith
    have hjlt : bidx x n < 2 ^ 64 - 1 := lt_of_lt_of_le hjj hKn2
    have hjeq : (bidx x n : ℤ) = ⌊Real.logb x (n : ℝ)⌋ := by
      have h0 : 0 ≤ ⌊Real.logb x (n : ℝ)⌋ :=
        Int.floor_nonneg.mpr (Real.logb_nonneg hx
          (by exact_mod_cast (by omega : 1 ≤ n)))
      have hdef : bidx x n = min ⌊Real.logb x (n : ℝ)⌋.toNat (2 ^ 64 - 1) := rfl
      omega
    have hH : Real.logb x (n : ℝ) < (bidx x n : ℝ) + 1 := by
      have h := Int.lt_floor_add_one (Real.logb x (n : ℝ))
      rw [← hjeq] at h
      exact_mod_cast h
    have hnpos : (0 : ℝ) < (n : ℝ) := by
      exact_mod_cast (by omega : 0 < n)
    have hI : (n : ℝ) < x ^ ((bidx x n : ℝ) + 1) :=
      (Real.logb_lt_iff_lt_rpow hx hnpos).mp hH
    have hJ : x ^ ((bidx x n : ℝ) + 1) ≤ x ^ (bidx x (m + 1) : ℝ) := by
      apply (Real.rpow_le_rpow_left_iff hx).mpr
      have h : bidx x n + 1 ≤ bidx x (m + 1) := hjj
      exact_mod_cast h
    have hKnm : n ≤ m := by
      have h : (n : ℝ) < ((m + 1 : ℕ) : ℝ) := lt_of_lt_of_le hI (le_of_le_of_eq hJ heq)
      have h2 : n < m + 1 := by exact_mod_cast h
      omega
    have hLnm : m ≤ n := by
      have h : (m : ℝ) ≤ (n : ℝ) := le_trans hm_le hA
      exact_mod_cast h
    have hnm : n = m := le_antisymm hKnm hLnm
    have hM : x ^ (bidx x n : ℝ) = (m : ℝ) :=
      le_antisymm (le_trans hA (le_of_eq (by exact_mod_cast hnm))) hm_le
    have hm2' : 2 ≤ m := by omega
    have hj1 : 1 ≤ bidx x n := by
      by_contra hcon
      have h0 : bidx x n = 0 := by omega
      rw [h0] at hM
      rw [Nat.cast_zero, Real.rpow_zero] at hM
      have : m = 1 := by exact_mod_cast hM.symm
      omega
    have hP : ((m : ℝ)) ^ (bidx x (m + 1)) = (((m + 1 : ℕ) : ℝ)) ^ (bidx x n) := by
      rw [← hM, ← heq, ← Real.rpow_natCast (x ^ (bidx x n : ℝ)) (bidx x (m + 1)),
        ← Real.rpow_natCast (x ^ (bidx x (m + 1) : ℝ)) (bidx x n),
        ← Real.rpow_mul hx0.le, ← Real.rpow_mul hx0.le, mul_comm]
    have hPn : m ^ (bidx x (m + 1)) = (m + 1) ^ (bidx x n) := by exact_mod_cast hP
    have hdvd : m ∣ (m + 1) ^ (bidx x n) := by
      rw [← hPn]
      exact dvd_pow_self m (by omega : bidx x (m + 1) ≠ 0)
    have hcop : Nat.Coprime m (m + 1) :=
      Nat.coprime_self_add_right.mpr (Nat.coprime_one_right m)
    have := (hcop.pow_right (bidx x n)).eq_one_of_dvd hdvd
    omega

theorem FP_s2m_fixed_of_gt_one {x : ℝ} (hx : 1 < x) {s : ℕ} (h1 : 1 ≤ s)
    (h2 : s ≤ 2 ^ 64 - 2)
    (hm2 : (⟨F64.num x⟩ : Functional FP).sample_to_bucket_minimum s ≤ 2 ^ 64 - 2) :
    (⟨F64.num x⟩ : Functional FP).sample_to_bucket_minimum
      ((⟨F64.num x⟩ : Functional FP).sample_to_bucket_minimum s) =
      (⟨F64.num x⟩ : Functional FP).sample_to_bucket_minimum s := by
  have hx0 : (0 : ℝ) < x := lt_trans one_pos hx
  have hev := FP_s2m_gt_one hx h1 h2
  rw [hev] at hm2 ⊢
  have hm1 : 1 ≤ ⌊x ^ (bidx x (s + 1) : ℝ)⌋.toNat := by
    have h := FP_s2m_gt_one_ge hx h1 h2
    rwa [hev] at h
  rw [FP_s2m_gt_one hx hm1 hm2]
  have hfl : 0 ≤ ⌊x ^ (bidx x (s + 1) : ℝ)⌋ :=
    Int.floor_nonneg.mpr (Real.rpow_pos_of_pos hx0 _).le
  have key := floor_rpow_bidx_fixed hx (s + 1) (⌊x ^ (bidx x (s + 1) : ℝ)⌋.toNat)
    (by omega) (by omega) (Int.toNat_of_nonneg hfl) hm2
  rw [key]
  omega

/-- C6 (counterexample): idempotence fails at `sample = u64::MAX` with
`new(2.0, 1.0)`: the wrap of `sample + 1` gives minimum `1`, but
re-mapping `1` gives `2` (the behaviour from the C1 counterexample).
All floating-point steps involved are exactly specified, so the
compiled release build agrees; a debug build panics on the inner call
instead of returning, falsifying the claim as well. -/
theorem C6_counterexample_wraparound :
    (Functional.new FP (F64.num 2) (F64.num 1)).sample_to_bucket_minimum
      ((Functional.new FP (F64.num 2) (F64.num 1)).sample_to_bucket_minimum
        (2 ^ 64 - 1)) ≠
    (Functional.new FP (F64.num 2) (F64.num 1)).sample_to_bucket_minimum
      (2 ^ 64 - 1) := by
  have h1 : (⟨F64.num 2⟩ : Functional FP).sample_to_bucket_minimum 1 = 2 := by
    rw [← FP_new_2_1]
    exact FP_s2m_2_1_sample1
  rw [FP_new_2_1, FP_s2m_gt_one_max one_lt_two, h1]
  omega

/-- C6 (amended): re-mapping a returned bucket minimum is a fixed point
for every strategy, every sample `s <= u64::MAX - 1`, provided the
returned minimum is also at most `u64::MAX - 1` (so that neither
computation hits the wrapping increment); the model evaluates the
finite floating-point arithmetic exactly, and under real `f64` rounding
the property can additionally fail at bucket boundaries. -/
theorem C6_idempotent_below_max (f : Functional FP) (s : ℕ)
    (hs : s ≤ 2 ^ 64 - 2)
    (hm : f.sample_to_bucket_minimum s ≤ 2 ^ 64 - 2) :
    f.sample_to_bucket_minimum (f.sample_to_bucket_minimum s) =
      f.sample_to_bucket_minimum s := by
  obtain ⟨e⟩ := f
  rcases Nat.eq_zero_or_pos s with rfl | h1
  · rfl
  cases e with
  | num x =>
    rcases le_or_lt x 1 with hx | hx
    · rw [FP_s2m_degenerate (F64.degenerate_of_le hx) h1 hs,
        FP_s2m_degenerate (F64.degenerate_of_le hx) (le_refl 1) (by norm_num)]
    · exact FP_s2m_fixed_of_gt_one hx h1 hs hm
  | inf =>
    rw [FP_s2m_degenerate F64.degenerate_inf h1 hs,
      FP_s2m_degenerate F64.degenerate_inf (le_refl 1) (by norm_num)]
  | ninf =>
    rw [FP_s2m_degenerate F64.degenerate_ninf h1 hs,
      FP_s2m_degenerate F64.degenerate_ninf (le_refl 1) (by norm_num)]
  | nan =>
    rw [FP_s2m_degenerate F64.degenerate_nan h1 hs,
      FP_s2m_degenerate F64.degenerate_nan (le_refl 1) (by norm_num)]

/-- Witness for C6 (amended) at a concrete input. -/
theorem C6_idempotent_below_max_witness :
    (Functional.new FP (F64.num 2) (F64.num 1)).sample_to_bucket_minimum
      ((Functional.new FP (F64.num 2) (F64.num 1)).sample_to_bucket_minimum 1) =
    (Functional.new FP (F64.num 2) (F64.num 1)).sample_to_bucket_minimum 1 :=
  C6_idempotent_below_max _ 1 (by norm_num)
    (by rw [FP_s2m_2_1_sample1]; norm_num)

/-! ## The regression table -/

theorem FP_new_2_8 :
    Functional.new FP (F64.num 2) (F64.num 8) =
      ⟨F64.num ((2 : ℝ) ^ ((1 : ℝ) / 8))⟩ :=
  FP_new_num two_pos (by norm_num) (by norm_num)

theorem rpow_div8_lower {i k : ℕ} (hlow : k ^ 8 ≤ 2 ^ i) :
    (k : ℝ) ≤ (2 : ℝ) ^ ((1 : ℝ) / 8 * i) := by
  have hcast : ((k : ℝ)) ^ (8 : ℕ) ≤ ((2 : ℝ)) ^ (i : ℕ) := by
    exact_mod_cast hlow
  have h := Real.rpow_le_rpow (by positivity) hcast (by norm_num : (0:ℝ) ≤ 1/8)
  rw [← Real.rpow_natCast (k : ℝ) 8, ← Real.rpow_natCast (2 : ℝ) i,
    ← Real.rpow_mul (by positivity), ← Real.rpow_mul (by norm_num)] at h
  have h8 : ((8 : ℕ) : ℝ) * (1 / 8) = 1 := by norm_num
  rw [h8, Real.rpow_one, mul_comm (i : ℝ) (1 / 8)] at h
  exact h

theorem rpow_div8_upper {i k : ℕ} (hhigh : 2 ^ i < (k + 1) ^ 8) :
    (2 : ℝ) ^ ((1 : ℝ) / 8 * i) < (k : ℝ) + 1 := by
  have hcast : ((2 : ℝ)) ^ (i : ℕ) < ((k : ℝ) + 1) ^ (8 : ℕ) := by
    exact_mod_cast hhigh
  have h := Real.rpow_lt_rpow (by positivity) hcast (by norm_num : (0:ℝ) < 1/8)
  rw [← Real.rpow_natCast ((k : ℝ) + 1) 8, ← Real.rpow_natCast (2 : ℝ) i,
    ← Real.rpow_mul (by positivity), ← Real.rpow_mul (by positivity)] at h
  have h8 : ((8 : ℕ) : ℝ) * (1 / 8) = 1 := by norm_num
  rw [h8, Real.rpow_one, mul_comm (i : ℝ) (1 / 8)] at h
  exact h

theorem bmin_2_8 (i k : ℕ) (hkK : k ≤ 2 ^ 64 - 2) (hlow : k ^ 8 ≤ 2 ^ i)
    (hhigh : 2 ^ i < (k + 1) ^ 8) :
    (Functional.new FP (F64.num 2) (F64.num 8)).bucket_index_to_bucket_minimum i
      = k := by
  rw [FP_new_2_8, FP_bmin_of_pos (Real.rpow_pos_of_pos two_pos _)]
  have hval : ((2 : ℝ) ^ ((1 : ℝ) / 8)) ^ (i : ℝ) =
      (2 : ℝ) ^ ((1 : ℝ) / 8 * (i : ℝ)) :=
    (Real.rpow_mul (by norm_num) _ _).symm
  rw [hval]
  have hfloor : ⌊(2 : ℝ) ^ ((1 : ℝ) / 8 * (i : ℝ))⌋ = (k : ℤ) := by
    rw [Int.floor_eq_iff]
    constructor
    · exact_mod_cast rpow_div8_lower hlow
    · push_cast
      exact rpow_div8_upper hhigh
  rw [hfloor]
  omega

/-- C3: with `new(2.0, 8.0)` (exponent `2^(1/8)`), the index-to-minimum
step reproduces the regression table of `test::regression_1623335`
exactly: indices 7..16 map to minima 1, 2, 2, 2, 2, 2, 3, 3, 3, 4.  The
model computes the power exactly; the compiled code (rounded `powf`)
produces the same ten truncated values, as its own test suite checks. -/
theorem C3_regression_1623335 :
    (Functional.new FP (F64.num 2) (F64.num 8)).bucket_index_to_bucket_minimum 7 = 1 ∧
    (Functional.new FP (F64.num 2) (F64.num 8)).bucket_index_to_bucket_minimum 8 = 2 ∧
    (Functional.new FP (F64.num 2) (F64.num 8)).bucket_index_to_bucket_minimum 9 = 2 ∧
    (Functional.new FP (F64.num 2) (F64.num 8)).bucket_index_to_bucket_minimum 10 = 2 ∧
    (Functional.new FP (F64.num 2) (F64.num 8)).bucket_index_to_bucket_minimum 11 = 2 ∧
    (Functional.new FP (F64.num 2) (F64.num 8)).bucket_index_to_bucket_minimum 12 = 2 ∧
    (Functional.new FP (F64.num 2) (F64.num 8)).bucket_index_to_bucket_minimum 13 = 3 ∧
    (Functional.new FP (F64.num 2) (F64.num 8)).bucket_index_to_bucket_minimum 14 = 3 ∧
    (Functional.new FP (F64.num 2) (F64.num 8)).bucket_index_to_bucket_minimum 15 = 3 ∧
    (Functional.new FP (F64.num 2) (F64.num 8)).bucket_index_to_bucket_minimum 16 = 4 :=
  ⟨bmin_2_8 7 1 (by norm_num) (by norm_num) (by norm_num),
   bmin_2_8 8 2 (by norm_num) (by norm_num) (by norm_num),
   bmin_2_8 9 2 (by norm_num) (by norm_num) (by norm_num),
   bmin_2_8 10 2 (by norm_num) (by norm_num) (by norm_num),
   bmin_2_8 11 2 (by norm_num) (by norm_num) (by norm_num),
   bmin_2_8 12 2 (by norm_num) (by norm_num) (by norm_num),
   bmin_2_8 13 3 (by norm_num) (by norm_num) (by norm_num),
   bmin_2_8 14 3 (by norm_num) (by norm_num) (by norm_num),
   bmin_2_8 15 3 (by norm_num) (by norm_num) (by norm_num),
   bmin_2_8 16 4 (by norm_num) (by norm_num) (by norm_num)⟩

/-! ## The exponent invariant -/

/-- C8 (counterexample): `buckets_per_magnitude = +inf` is an `f64`
value satisfying `bpm > 0`, and `log_base = 2.0 > 1.0`, yet
`new(2.0, inf)` stores the exponent `1.0`, not a value above one:
`1.0 / inf = 0` and `pow(2, 0) = 1` exactly, by IEEE-mandated rules the
compiled code follows bit-for-bit. -/
theorem C8_counterexample_infinite_bpm :
    F64.flt (F64.num 1) (F64.num 2) ∧ F64.flt (F64.num 0) F64.inf ∧
    (Functional.new FP (F64.num 2) F64.inf).exponent = F64.num 1 ∧
    ¬ F64.flt (F64.num 1) ((Functional.new FP (F64.num 2) F64.inf).exponent) := by
  have hexp : (Functional.new FP (F64.num 2) F64.inf).exponent = F64.num 1 := by
    show F64.fpow (F64.num 2) (F64.fdiv (F64.num 1) F64.inf) = F64.num 1
    rw [F64.fdiv_num_inf, F64.fpow_num_zero]
  refine ⟨?one_lt_two, ?zero_lt_inf, hexp, ?not_gt⟩
  · show (1 : ℝ) < 2
    norm_num
  · trivial
  · rw [hexp]
    show ¬ (1 : ℝ) < 1
    norm_num

/-- C8 (amended): for *finite* parameters `log_base > 1` and
`buckets_per_magnitude > 0`, the stored exponent
`log_base ^ (1 / buckets_per_magnitude)` (evaluated exactly) is
strictly above `1.0`. -/
theorem C8_exponent_gt_one_finite {lb bpm : ℝ} (hlb : 1 < lb) (hbpm : 0 < bpm) :
    F64.flt (F64.num 1)
      ((Functional.new FP (F64.num lb) (F64.num bpm)).exponent) := by
  have h0 : (0 : ℝ) < lb := lt_trans one_pos hlb
  rw [FP_new_num h0 hbpm.ne' (one_div_ne_zero hbpm.ne')]
  show (1 : ℝ) < lb ^ ((1 : ℝ) / bpm)
  exact (Real.one_lt_rpow_iff_of_pos h0).mpr (Or.inl ⟨hlb, by positivity⟩)

/-- Witness for C8 (amended) at a concrete input. -/
theorem C8_exponent_gt_one_finite_witness :
    F64.flt (F64.num 1)
      ((Functional.new FP (F64.num 2) (F64.num 8)).exponent) :=
  C8_exponent_gt_one_finite (by norm_num) (by norm_num)

/-- C10: for every strategy with a finite exponent strictly above one,
every sample `s >= 1` maps to a bucket minimum of at least `1` (even
`u64::MAX`, whose wrapped offset goes through `ln 0 = -inf`, index `0`
and `pow(x, 0) = 1`); consequently bucket minimum `0` is returned only
for sample `0`. -/
theorem C10_minimum_positive {x : ℝ} (hx : 1 < x) (s : ℕ) (hs : s < 2 ^ 64) :
    (1 ≤ s → 1 ≤ (⟨F64.num x⟩ : Functional FP).sample_to_bucket_minimum s) ∧
    ((⟨F64.num x⟩ : Functional FP).sample_to_bucket_minimum s = 0 → s = 0) := by
  have main : 1 ≤ s →
      1 ≤ (⟨F64.num x⟩ : Functional FP).sample_to_bucket_minimum s := by
    intro h1
    rcases Nat.lt_or_ge s (2 ^ 64 - 1) with h | h
    · exact FP_s2m_gt_one_ge hx h1 (by omega)
    · have hsx : s = 2 ^ 64 - 1 := by omega
      subst hsx
      rw [FP_s2m_gt_one_max hx]
  refine ⟨main, fun h0 => ?z⟩
  by_contra hs0
  have := main (by omega)
  omega

/-- Witness for C10 at a concrete input. -/
theorem C10_minimum_positive_witness :
    1 ≤ (⟨F64.num 2⟩ : Functional FP).sample_to_bucket_minimum 5 :=
  (C10_minimum_positive one_lt_two 5 (by norm_num)).1 (by norm_num)
